import Mathlib

/-!
# A verification development for the `typed-arena` crate (calebmer/rust-typed-arena)

Shallow embedding of `src/lib.rs`: a typed bump allocator whose storage is a
`ChunkList` (one mutable `current` chunk plus a list `rest` of retired chunks),
with single-item allocation (`alloc`), batch allocation (`alloc_extend`),
raw allocation (`alloc_uninitialized`), conversion to a vector (`into_vec`),
the growth routine (`ChunkList.reserve`) and the live iterator (`Iter.next`).

Modelling conventions:
* Rust `Vec<T>` is a `Chunk`: a list of elements plus a capacity field.
  `Vec::push` / `Vec::extend` are `Chunk.vpush` / `Chunk.vextend`; when a push
  stays within capacity the capacity is unchanged, otherwise `Vec` reallocates
  so the capacity grows to at least the new length (the exact grown value is
  unspecified by Rust; we record the lower bound `max cap newLen`, and no
  theorem below inspects a capacity after such an overrun).
* `usize` is `Nat` together with explicit bounds against `usizeMax = 2^64 - 1`;
  `checked_mul` / `checked_next_power_of_two` failing (a `panic!` via `expect`)
  is modelled by `Option.none`.
* A Rust iterator passed to `alloc_extend` is modelled by the list of items it
  will yield plus the lower bound `hint` of its `size_hint` (the code only
  reads `iter.size_hint().0`).
* Rust `0u64.next_power_of_two() = 1`, and otherwise the least power of two
  that is `≥ n`; `nextPow2` computes this by doubling an accumulator, with
  structural fuel so that the kernel can evaluate it.
-/

namespace TypedArena

/-- Maximum value of `usize` (64-bit platform). -/
def usizeMax : Nat := 2 ^ 64 - 1

/-- `const INITIAL_SIZE: usize = 1024;` (initial chunk size in bytes). -/
def INITIAL_SIZE : Nat := 1024

/-- `const MIN_CAPACITY: usize = 1;` (minimum chunk capacity). -/
def MIN_CAPACITY : Nat := 1

/-- Accumulator loop for `nextPow2`: doubles `acc` (a power of two) until it
reaches `n`.  `fuel` only forces structural termination; `nextPow2` supplies
enough of it. -/
def nextPow2Go (fuel acc n : Nat) : Nat :=
  match fuel with
  | 0 => acc
  | f + 1 => if n ≤ acc then acc else nextPow2Go f (2 * acc) n

/-- Rust's `usize::next_power_of_two`: the least power of two `≥ n`
(and `1` for `n = 0`). -/
def nextPow2 (n : Nat) : Nat := nextPow2Go n 1 n

/-- One backing buffer (`Vec<T>`): its elements and its capacity. -/
structure Chunk (T : Type) where
  data : List T
  cap : Nat
deriving DecidableEq, Repr

/-- `struct ChunkList<T> { current: Vec<T>, rest: Vec<Vec<T>> }`. -/
structure ChunkList (T : Type) where
  current : Chunk T
  rest : List (Chunk T)
deriving DecidableEq, Repr

variable {T : Type}

/-- `Vec::push`.  Within capacity the buffer is unchanged; past capacity the
`Vec` reallocates to capacity at least the new length. -/
def Chunk.vpush (c : Chunk T) (x : T) : Chunk T :=
  { data := c.data ++ [x], cap := max c.cap (c.data.length + 1) }

/-- `Vec::extend`.  Same capacity convention as `Chunk.vpush`. -/
def Chunk.vextend (c : Chunk T) (xs : List T) : Chunk T :=
  { data := c.data ++ xs, cap := max c.cap (c.data.length + xs.length) }

/-- `ChunkList::reserve(additional)` (src/lib.rs:336-348): compute
`double_cap = current.capacity().checked_mul(2)` and
`required_cap = additional.checked_next_power_of_two()` (either `expect`
failing is a panic, modelled as `none`), replace `current` by a fresh chunk of
capacity `max double_cap required_cap`, and push the old current chunk onto
the end of `rest`. -/
def ChunkList.reserve (cl : ChunkList T) (additional : Nat) : Option (ChunkList T) :=
  if usizeMax < 2 * cl.current.cap then none
  else if usizeMax < nextPow2 additional then none
  else some { current := { data := [], cap := max (2 * cl.current.cap) (nextPow2 additional) },
              rest := cl.rest ++ [cl.current] }

namespace Arena

/-- `Arena::with_capacity(n)` (src/lib.rs:137-145): capacity hint floored to
`MIN_CAPACITY`, empty chunk list. -/
def with_capacity (n : Nat) : ChunkList T :=
  { current := { data := [], cap := max MIN_CAPACITY n }, rest := [] }

/-- `Arena::new()` (src/lib.rs:122-125): capacity `INITIAL_SIZE / size` where
`size = max 1 (size_of::<T>())`.  The element byte size is a parameter of the
model. -/
def new (sizeOfT : Nat) : ChunkList T :=
  with_capacity (INITIAL_SIZE / max 1 sizeOfT)

/-- `Arena::alloc_fast_path` (src/lib.rs:166-174): push if the current chunk
has spare capacity, else hand the value back (`Err(value)`, here `none`). -/
def alloc_fast_path (cl : ChunkList T) (value : T) : Option (ChunkList T) :=
  if cl.current.data.length < cl.current.cap then
    some { cl with current := cl.current.vpush value }
  else none

/-- The `while let Some(elem) = iter.next()` loop of `Arena::alloc_extend`
(src/lib.rs:208-230).  `i` counts elements pushed by this call so far,
`startLen` is `current.len()` at entry to `alloc_extend`.  When the current
chunk is full the code reserves room for `i + 1` more elements, drains the
last `i` elements (the ones this call pushed) out of the retired chunk into
the new current chunk, pushes `elem` and then the rest of the iterator.
Outer `none` is a panic inside `reserve`.  The result carries
`next_item_index`, the start of the returned slice in the current chunk. -/
def alloc_extend_loop (cl : ChunkList T) (items : List T) (i startLen : Nat) :
    Option (ChunkList T × Nat) :=
  match items with
  | [] => some (cl, startLen)
  | elem :: restItems =>
    if cl.current.data.length = cl.current.cap then
      match cl.reserve (i + 1) with
      | none => none
      | some cl2 =>
        match cl2.rest.getLast? with
        | none => none
        | some prev =>
          let prevLen := prev.data.length
          let moved := prev.data.drop (prevLen - i)
          let prevKept : Chunk T := { prev with data := prev.data.take (prevLen - i) }
          let cur := ((cl2.current.vextend moved).vpush elem).vextend restItems
          some ({ current := cur, rest := cl2.rest.dropLast ++ [prevKept] }, 0)
    else
      alloc_extend_loop { cl with current := cl.current.vpush elem } restItems (i + 1) startLen

/-- `Arena::alloc_extend(iterable)` (src/lib.rs:192-248).  If the size hint
already overruns the current chunk, reserve and extend the fresh chunk with
the whole iterator; otherwise run the push loop.  Returns the new state and
`next_item_index`; the returned slice is `current.data.drop next_item_index`. -/
def alloc_extend (cl : ChunkList T) (items : List T) (hint : Nat) :
    Option (ChunkList T × Nat) :=
  if cl.current.cap < cl.current.data.length + hint then
    match cl.reserve hint with
    | none => none
    | some cl2 => some ({ cl2 with current := cl2.current.vextend items }, 0)
  else
    alloc_extend_loop cl items 0 cl.current.data.length

/-- `Arena::alloc(value)` (src/lib.rs:159-178): fast path, else
`alloc_extend(iter::once(value))` whose size hint is `1`. -/
def alloc (cl : ChunkList T) (value : T) : Option (ChunkList T) :=
  match alloc_fast_path cl value with
  | some cl2 => some cl2
  | none => (alloc_extend cl [value] 1).map Prod.fst

/-- `Arena::alloc_uninitialized(num)` (src/lib.rs:269-281): reserve if needed,
then `set_len(len + num)`.  The `num` uninitialized slots are modelled by the
list `junk` (so `num = junk.length`); `set_len` does not change the capacity. -/
def alloc_uninitialized (cl : ChunkList T) (junk : List T) : Option (ChunkList T) :=
  let step : Option (ChunkList T) :=
    if cl.current.cap < cl.current.data.length + junk.length then cl.reserve junk.length
    else some cl
  match step with
  | none => none
  | some cl2 => some { cl2 with current := { cl2.current with data := cl2.current.data ++ junk } }

/-- `Arena::into_vec()` (src/lib.rs:317-330): the retired chunks concatenated
in order, then the current chunk. -/
def into_vec (cl : ChunkList T) : List T :=
  (cl.rest.map Chunk.data).flatten ++ cl.current.data

end Arena

/-- The chunks of the arena in allocation order: `rest` then `current`.
An index into this list is stable: `reserve` appends the old current chunk at
position `rest.length` (exactly where the cursorless view already had it) and
the new current chunk appears after it. -/
def chunks_of (cl : ChunkList T) : List (List T) :=
  cl.rest.map Chunk.data ++ [cl.current.data]

/-- The element of the arena at position (chunk index, offset), if any. -/
def get_at (cl : ChunkList T) (c o : Nat) : Option T :=
  (((chunks_of cl)[c]?).getD [])[o]?

/-- The capacities of all chunks, in allocation order (`rest` then `current`). -/
def chunk_caps (cl : ChunkList T) : List Nat :=
  cl.rest.map Chunk.cap ++ [cl.current.cap]

/-- An allocation call on the arena: `alloc`, `alloc_extend` (items plus size
hint), or `alloc_uninitialized` (the junk filling the uninitialized slots). -/
inductive Op (T : Type) where
  | allocOp (v : T)
  | extendOp (items : List T) (hint : Nat)
  | uninitOp (junk : List T)
deriving DecidableEq

/-- Whether the call is one of `alloc` / `alloc_extend`. -/
def Op.isAllocOrExtend : Op T → Bool
  | .allocOp _ => true
  | .extendOp _ _ => true
  | .uninitOp _ => false

/-- The elements an allocation call makes live in the arena. -/
def Op.produced : Op T → List T
  | .allocOp v => [v]
  | .extendOp items _ => items
  | .uninitOp junk => junk

/-- Run one allocation call. -/
def apply_op (cl : ChunkList T) : Op T → Option (ChunkList T)
  | .allocOp v => Arena.alloc cl v
  | .extendOp items hint => (Arena.alloc_extend cl items hint).map Prod.fst
  | .uninitOp junk => Arena.alloc_uninitialized cl junk

/-- Run a sequence of allocation calls. -/
def run_ops (cl : ChunkList T) : List (Op T) → Option (ChunkList T)
  | [] => some cl
  | op :: ops =>
    match apply_op cl op with
    | none => none
    | some cl2 => run_ops cl2 ops

/-- All elements produced by a sequence of allocation calls, in order. -/
def produced_all (ops : List (Op T)) : List T :=
  (ops.map Op.produced).flatten

/-- The iterator state of `struct Iter` (src/lib.rs:448-453), minus the arena
reference which is passed to `next` explicitly. -/
structure Iter where
  done : Bool
  chunk : Nat
  i : Nat
deriving DecidableEq, Repr

/-- `Iter::next` (src/lib.rs:470-494), reading the current arena state.
Outer `none` models an index-out-of-bounds panic in `&chunk[i]`;
`some (none, it)` is the iterator returning `None`;
`some (some v, it)` is the iterator yielding `v`.
Note that in the retired-chunk branch the local `chunk` binding is taken
before `self.chunk` is advanced, exactly as in the source. -/
def Iter.next (it : Iter) (cl : ChunkList T) : Option (Option T × Iter) :=
  if it.done then some (none, it)
  else if it.chunk = cl.rest.length then
    let chunk := cl.current
    if it.i = chunk.data.length then some (none, { it with done := true })
    else
      match chunk.data[it.i]? with
      | none => none
      | some v => some (some v, { it with i := it.i + 1 })
  else
    match cl.rest[it.chunk]? with
    | none => none
    | some chunk =>
      let st := if it.i = chunk.data.length then (it.chunk + 1, 0) else (it.chunk, it.i)
      match chunk.data[st.2]? with
      | none => none
      | some v => some (some v, { done := it.done, chunk := st.1, i := st.2 + 1 })

/-- An item yielded to `alloc_extend` by an iterator that may re-entrantly
call back into the same arena while being consumed.  `pure v` just yields
`v`; `reentrantAlloc w v` first calls `arena.alloc w` — which needs
`RefCell::borrow_mut` on the very cell that `alloc_extend` is holding
mutably borrowed — and then would yield `v`. -/
inductive ExtendItem (T : Type) where
  | pure (v : T)
  | reentrantAlloc (w : T) (v : T)
deriving DecidableEq

/-- Whether consuming the item re-entrantly mutates the arena. -/
def ExtendItem.isReentrant : ExtendItem T → Bool
  | .pure _ => false
  | .reentrantAlloc _ _ => true

/-- Consume one item while `alloc_extend` holds the `RefCell` mutably
borrowed.  `RefCell::borrow_mut` panics when a mutable borrow is already
active, so a re-entrant allocation inside `next()` panics (`none`) before
yielding anything. -/
def consume_item : ExtendItem T → Option T
  | .pure v => some v
  | .reentrantAlloc _ _ => none

/-- Consume a whole iterator (`Vec::extend(iter)`) under the active mutable
borrow. -/
def consume_all : List (ExtendItem T) → Option (List T)
  | [] => some []
  | a :: rest =>
    match consume_item a with
    | none => none
    | some v => (consume_all rest).map (v :: ·)

/-- The `alloc_extend` push loop, with the iterator's possible re-entrant
effects made explicit.  Mirrors `Arena.alloc_extend_loop`; each `iter.next()`
goes through `consume_item` and panics (`none`) if the item re-entrantly
borrows the arena. -/
def alloc_extend_loop_cell (cl : ChunkList T) (items : List (ExtendItem T)) (i startLen : Nat) :
    Option (ChunkList T × Nat) :=
  match items with
  | [] => some (cl, startLen)
  | a :: restItems =>
    match consume_item a with
    | none => none
    | some elem =>
      if cl.current.data.length = cl.current.cap then
        match cl.reserve (i + 1) with
        | none => none
        | some cl2 =>
          match cl2.rest.getLast? with
          | none => none
          | some prev =>
            match consume_all restItems with
            | none => none
            | some vs =>
              let prevLen := prev.data.length
              let moved := prev.data.drop (prevLen - i)
              let prevKept : Chunk T := { prev with data := prev.data.take (prevLen - i) }
              let cur := ((cl2.current.vextend moved).vpush elem).vextend vs
              some ({ current := cur, rest := cl2.rest.dropLast ++ [prevKept] }, 0)
      else
        alloc_extend_loop_cell { cl with current := cl.current.vpush elem } restItems (i + 1)
          startLen

/-- `Arena::alloc_extend` with the iterator's possible re-entrant effects made
explicit: the `RefCell` is mutably borrowed for the whole call, so every item
is consumed under that borrow. -/
def alloc_extend_cell (cl : ChunkList T) (items : List (ExtendItem T)) (hint : Nat) :
    Option (ChunkList T × Nat) :=
  if cl.current.cap < cl.current.data.length + hint then
    match cl.reserve hint with
    | none => none
    | some cl2 =>
      match consume_all items with
      | none => none
      | some vs => some ({ cl2 with current := cl2.current.vextend vs }, 0)
  else
    alloc_extend_loop_cell cl items 0 cl.current.data.length

/-! ## Helper lemmas about `nextPow2` -/

theorem nextPow2Go_isPow (fuel : Nat) :
    ∀ (j n : Nat), ∃ k, nextPow2Go fuel (2 ^ j) n = 2 ^ k := by
  induction fuel with
  | zero => intro j n; exact ⟨j, rfl⟩
  | succ f ih =>
    intro j n
    by_cases h : n ≤ 2 ^ j
    · exact ⟨j, by simp [nextPow2Go, h]⟩
    · have h2 : (2 : Nat) * 2 ^ j = 2 ^ (j + 1) := by ring
      simpa [nextPow2Go, h, h2] using ih (j + 1) n

theorem le_nextPow2Go (fuel : Nat) :
    ∀ (acc n : Nat), n ≤ acc * 2 ^ fuel → n ≤ nextPow2Go fuel acc n := by
  induction fuel with
  | zero => intro acc n h; simpa [nextPow2Go] using h
  | succ f ih =>
    intro acc n h
    by_cases hle : n ≤ acc
    · simp [nextPow2Go, hle]
    · have h2 : n ≤ 2 * acc * 2 ^ f := by
        have e : 2 * acc * 2 ^ f = acc * 2 ^ (f + 1) := by ring
        rw [e]; exact h
      simpa [nextPow2Go, hle] using ih (2 * acc) n h2

theorem nextPow2Go_le (fuel : Nat) :
    ∀ (j m n : Nat), 2 ^ j ≤ 2 ^ m → n ≤ 2 ^ m → nextPow2Go fuel (2 ^ j) n ≤ 2 ^ m := by
  induction fuel with
  | zero => intro j m n hj _; simpa [nextPow2Go] using hj
  | succ f ih =>
    intro j m n hj hn
    by_cases hle : n ≤ 2 ^ j
    · simpa [nextPow2Go, hle] using hj
    · have hlt : 2 ^ j < 2 ^ m := lt_of_lt_of_le (lt_of_not_le hle) hn
      have hjm : j < m := (Nat.pow_lt_pow_iff_right (by omega)).mp hlt
      have hj1 : 2 ^ (j + 1) ≤ 2 ^ m := Nat.pow_le_pow_right (by omega) (by omega)
      have h2 : (2 : Nat) * 2 ^ j = 2 ^ (j + 1) := by ring
      simpa [nextPow2Go, hle, h2] using ih (j + 1) m n hj1 hn

/-- `nextPow2 n` is at least `n`. -/
theorem le_nextPow2 (n : Nat) : n ≤ nextPow2 n :=
  le_nextPow2Go n 1 n (by simpa using Nat.le_of_lt (Nat.lt_two_pow n))

/-- `nextPow2 n` is a power of two. -/
theorem nextPow2_isPow (n : Nat) : ∃ k, nextPow2 n = 2 ^ k := by
  simpa [nextPow2] using nextPow2Go_isPow n 0 n

/-- `nextPow2 n` is the least power of two that is at least `n`. -/
theorem nextPow2_le (n m : Nat) (h : n ≤ 2 ^ m) : nextPow2 n ≤ 2 ^ m := by
  have h1 : (2 : Nat) ^ 0 ≤ 2 ^ m := Nat.pow_le_pow_right (by omega) (Nat.zero_le m)
  simpa [nextPow2] using nextPow2Go_le n 0 m n h1 h

/-- If `n` fits in `2 ^ 63` then its power-of-two rounding fits in `usize`. -/
theorem nextPow2_le_usizeMax (n : Nat) (h : n ≤ 2 ^ 63) : nextPow2 n ≤ usizeMax := by
  have h1 : nextPow2 n ≤ 2 ^ 63 := nextPow2_le n 63 h
  have h2 : (2 : Nat) ^ 63 ≤ usizeMax := by norm_num [usizeMax]
  omega

/-! ## Helper lemmas about `ChunkList.reserve` and the `Vec` model -/

theorem reserve_eq_none_iff (cl : ChunkList T) (k : Nat) :
    cl.reserve k = none ↔ usizeMax < 2 * cl.current.cap ∨ usizeMax < nextPow2 k := by
  rw [ChunkList.reserve]
  by_cases h1 : usizeMax < 2 * cl.current.cap
  · simp [h1]
  · by_cases h2 : usizeMax < nextPow2 k <;> simp [h1, h2]

theorem reserve_eq_some (cl cl' : ChunkList T) (k : Nat) (h : cl.reserve k = some cl') :
    cl'.current.data = [] ∧ cl'.current.cap = max (2 * cl.current.cap) (nextPow2 k) ∧
      cl'.rest = cl.rest ++ [cl.current] := by
  rw [ChunkList.reserve] at h
  split at h
  · cases h
  · split at h
    · cases h
    · injection h with h; subst h; exact ⟨rfl, rfl, rfl⟩

theorem vpush_data (c : Chunk T) (x : T) : (c.vpush x).data = c.data ++ [x] := rfl

theorem vextend_data (c : Chunk T) (xs : List T) : (c.vextend xs).data = c.data ++ xs := rfl

/-- A `Vec` after `push` satisfies `len ≤ cap`. -/
theorem vpush_wf (c : Chunk T) (x : T) : (c.vpush x).data.length ≤ (c.vpush x).cap := by
  simp [Chunk.vpush]

/-- A `Vec` after `extend` satisfies `len ≤ cap`. -/
theorem vextend_wf (c : Chunk T) (xs : List T) :
    (c.vextend xs).data.length ≤ (c.vextend xs).cap := by
  simp [Chunk.vextend]

/-- `push` within capacity does not change the capacity. -/
theorem vpush_cap_of_lt (c : Chunk T) (x : T) (h : c.data.length < c.cap) :
    (c.vpush x).cap = c.cap := by
  simp [Chunk.vpush]; omega

/-! ## Specification of the `alloc_extend` push loop

`i` elements have already been pushed this call, `startLen` was the current
length at entry, so `current.data.length = startLen + i`.  Either the loop
completes in place (no retirement: the chunk had room for everything), or it
splices: the old current chunk is retired holding exactly its first
`startLen` elements (its pre-call contents) and the new current chunk holds
contiguously all elements pushed by this call. -/

theorem alloc_extend_loop_spec (items : List T) :
    ∀ (cl : ChunkList T) (i startLen : Nat) (cl' : ChunkList T) (idx : Nat),
    cl.current.data.length = startLen + i →
    cl.current.data.length ≤ cl.current.cap →
    Arena.alloc_extend_loop cl items i startLen = some (cl', idx) →
    (cl'.rest = cl.rest ∧ idx = startLen ∧ cl'.current.data = cl.current.data ++ items ∧
      cl.current.data.length + items.length ≤ cl.current.cap) ∨
    (cl'.rest.map Chunk.data = cl.rest.map Chunk.data ++ [cl.current.data.take startLen] ∧
      idx = 0 ∧ cl'.current.data = cl.current.data.drop startLen ++ items) := by
  induction items with
  | nil =>
    intro cl i startLen cl' idx hlen hwf h
    simp only [Arena.alloc_extend_loop, Option.some.injEq, Prod.mk.injEq] at h
    obtain ⟨h1, h2⟩ := h
    subst h1; subst h2
    exact Or.inl ⟨rfl, rfl, by simp, by simpa using hwf⟩
  | cons elem restItems ih =>
    intro cl i startLen cl' idx hlen hwf h
    by_cases hfull : cl.current.data.length = cl.current.cap
    · -- the current chunk is full: reserve, drain, push, extend
      cases hres : cl.reserve (i + 1) with
      | none => simp [Arena.alloc_extend_loop, hfull, hres] at h
      | some cl2 =>
        obtain ⟨hd, hc, hr⟩ := reserve_eq_some cl cl2 (i + 1) hres
        have hlast : cl2.rest.getLast? = some cl.current := by
          rw [hr]; exact List.getLast?_concat _
        simp only [Arena.alloc_extend_loop, if_pos hfull, hres, hlast, Option.some.injEq,
          Prod.mk.injEq] at h
        obtain ⟨h1, h2⟩ := h
        subst h1; subst h2
        have hsub : cl.current.data.length - i = startLen := by omega
        refine Or.inr ⟨?_, rfl, ?_⟩
        · simp [hr, List.dropLast_concat, hsub]
        · simp [hd, hsub, Chunk.vextend, Chunk.vpush]
    · -- room left: push and continue
      have hlt : cl.current.data.length < cl.current.cap := lt_of_le_of_ne hwf hfull
      simp only [Arena.alloc_extend_loop, if_neg hfull] at h
      have hlen2 : ({ cl with current := cl.current.vpush elem } :
          ChunkList T).current.data.length = startLen + (i + 1) := by
        simp [Chunk.vpush]; omega
      have hwf2 := vpush_wf cl.current elem
      have hcap2 : (cl.current.vpush elem).cap = cl.current.cap := vpush_cap_of_lt _ _ hlt
      rcases ih _ (i + 1) startLen cl' idx hlen2 hwf2 h with h1 | h2
      · obtain ⟨ha, hb, hcc, hdd⟩ := h1
        refine Or.inl ⟨ha, hb, ?_, ?_⟩
        · simpa [Chunk.vpush] using hcc
        · simp only [Chunk.vpush, List.length_append, List.length_cons, hcap2] at hdd ⊢
          omega
      · obtain ⟨ha, hb, hcc⟩ := h2
        have hsl : startLen ≤ cl.current.data.length := by omega
        refine Or.inr ⟨?_, hb, ?_⟩
        · simpa [Chunk.vpush, List.take_append_of_le_length hsl] using ha
        · simpa [Chunk.vpush, List.drop_append_of_le_length hsl] using hcc

/-- Top-level specification of `Arena.alloc_extend`: the returned slice
(`current.data.drop idx`) is exactly the produced items in order, and the
chunk structure either extends the current chunk in place or retires the old
current chunk with exactly its pre-call contents. -/
theorem alloc_extend_spec (cl cl' : ChunkList T) (items : List T) (hint idx : Nat)
    (hwf : cl.current.data.length ≤ cl.current.cap)
    (h : Arena.alloc_extend cl items hint = some (cl', idx)) :
    cl'.current.data.drop idx = items ∧
    ((cl'.rest = cl.rest ∧ idx = cl.current.data.length ∧
        cl'.current.data = cl.current.data ++ items ∧
        cl.current.data.length + items.length ≤ cl.current.cap) ∨
      (cl'.rest.map Chunk.data = cl.rest.map Chunk.data ++ [cl.current.data] ∧ idx = 0 ∧
        cl'.current.data = items)) := by
  by_cases hover : cl.current.cap < cl.current.data.length + hint
  · -- the size hint already overruns: reserve up front, then extend the fresh chunk
    cases hres : cl.reserve hint with
    | none => simp [Arena.alloc_extend, hover, hres] at h
    | some cl2 =>
      obtain ⟨hd, hc, hr⟩ := reserve_eq_some cl cl2 hint hres
      simp only [Arena.alloc_extend, if_pos hover, hres, Option.some.injEq, Prod.mk.injEq] at h
      obtain ⟨h1, h2⟩ := h
      subst h1; subst h2
      refine ⟨by simp [Chunk.vextend, hd], Or.inr ⟨by simp [hr], rfl, by simp [Chunk.vextend, hd]⟩⟩
  · simp only [Arena.alloc_extend, if_neg hover] at h
    rcases alloc_extend_loop_spec items cl 0 cl.current.data.length cl' idx (by omega) hwf h
      with h1 | h2
    · obtain ⟨ha, hb, hcc, hdd⟩ := h1
      refine ⟨?_, Or.inl ⟨ha, hb, hcc, hdd⟩⟩
      subst hb; rw [hcc]
      simp [List.drop_append_of_le_length (le_refl cl.current.data.length)]
    · obtain ⟨ha, hb, hcc⟩ := h2
      simp only [List.take_length, List.drop_length, List.nil_append] at ha hcc
      exact ⟨by simp [hb, hcc], Or.inr ⟨ha, hb, hcc⟩⟩

/-- The push loop keeps the current chunk well formed (`len ≤ cap`). -/
theorem alloc_extend_loop_wf (items : List T) :
    ∀ (cl : ChunkList T) (i startLen : Nat) (cl' : ChunkList T) (idx : Nat),
    cl.current.data.length ≤ cl.current.cap →
    Arena.alloc_extend_loop cl items i startLen = some (cl', idx) →
    cl'.current.data.length ≤ cl'.current.cap := by
  induction items with
  | nil =>
    intro cl i startLen cl' idx hwf h
    simp only [Arena.alloc_extend_loop, Option.some.injEq, Prod.mk.injEq] at h
    obtain ⟨h1, _⟩ := h; subst h1; exact hwf
  | cons elem restItems ih =>
    intro cl i startLen cl' idx hwf h
    by_cases hfull : cl.current.data.length = cl.current.cap
    · cases hres : cl.reserve (i + 1) with
      | none => simp [Arena.alloc_extend_loop, hfull, hres] at h
      | some cl2 =>
        obtain ⟨_, _, hr⟩ := reserve_eq_some cl cl2 (i + 1) hres
        have hlast : cl2.rest.getLast? = some cl.current := by
          rw [hr]; exact List.getLast?_concat _
        simp only [Arena.alloc_extend_loop, if_pos hfull, hres, hlast, Option.some.injEq,
          Prod.mk.injEq] at h
        obtain ⟨h1, _⟩ := h; subst h1
        exact vextend_wf _ _
    · simp only [Arena.alloc_extend_loop, if_neg hfull] at h
      exact ih _ (i + 1) startLen cl' idx (vpush_wf cl.current elem) h

/-- `alloc_extend` keeps the current chunk well formed. -/
theorem alloc_extend_wf (cl cl' : ChunkList T) (items : List T) (hint idx : Nat)
    (hwf : cl.current.data.length ≤ cl.current.cap)
    (h : Arena.alloc_extend cl items hint = some (cl', idx)) :
    cl'.current.data.length ≤ cl'.current.cap := by
  by_cases hover : cl.current.cap < cl.current.data.length + hint
  · cases hres : cl.reserve hint with
    | none => simp [Arena.alloc_extend, hover, hres] at h
    | some cl2 =>
      simp only [Arena.alloc_extend, if_pos hover, hres, Option.some.injEq, Prod.mk.injEq] at h
      obtain ⟨h1, _⟩ := h; subst h1
      exact vextend_wf _ _
  · simp only [Arena.alloc_extend, if_neg hover] at h
    exact alloc_extend_loop_wf items cl 0 _ cl' idx hwf h

/-! ## Position stability helpers

Positions are (chunk index, offset) into `chunks_of` (retired chunks in
retirement order, then the current chunk).  Retirement appends the old
current chunk at index `rest.length`, exactly where `chunks_of` already had
it, so positions never shift. -/

theorem get_at_extend_current (cl cl' : ChunkList T) (suff : List T) (c o : Nat) (x : T)
    (hrest : cl'.rest = cl.rest) (hcur : cl'.current.data = cl.current.data ++ suff)
    (h : get_at cl c o = some x) : get_at cl' c o = some x := by
  unfold get_at chunks_of at h ⊢
  by_cases hc : c < cl.rest.length
  · have hc1 : c < (cl.rest.map Chunk.data).length := by simpa using hc
    have hc2 : c < (cl'.rest.map Chunk.data).length := by simpa [hrest] using hc
    rw [List.getElem?_append_left hc1] at h
    rw [List.getElem?_append_left hc2, hrest]
    exact h
  · by_cases he : c = cl.rest.length
    · subst he
      have h1 : (cl.rest.map Chunk.data ++ [cl.current.data])[cl.rest.length]?
          = some cl.current.data := by
        have hx := List.getElem?_concat_length (cl.rest.map Chunk.data) cl.current.data
        rw [List.length_map] at hx
        exact hx
      have h2 : (cl'.rest.map Chunk.data ++ [cl'.current.data])[cl.rest.length]?
          = some cl'.current.data := by
        simp [hrest, List.getElem?_concat_length]
      rw [h1, Option.getD_some] at h
      rw [h2, Option.getD_some, hcur]
      have ho : o < cl.current.data.length := by
        by_contra ho
        rw [List.getElem?_eq_none (by omega)] at h
        cases h
      rw [List.getElem?_append_left ho]
      exact h
    · have hnone : (cl.rest.map Chunk.data ++ [cl.current.data])[c]? = none := by
        apply List.getElem?_eq_none
        simp; omega
      rw [hnone] at h
      simp at h

theorem get_at_retire (cl cl' : ChunkList T) (c o : Nat) (x : T)
    (hrest : cl'.rest.map Chunk.data = cl.rest.map Chunk.data ++ [cl.current.data])
    (h : get_at cl c o = some x) : get_at cl' c o = some x := by
  unfold get_at chunks_of at h ⊢
  have hlt : c < (cl.rest.map Chunk.data ++ [cl.current.data]).length := by
    by_contra hge
    have hn : (cl.rest.map Chunk.data ++ [cl.current.data])[c]? = none :=
      List.getElem?_eq_none (by omega)
    rw [hn] at h
    simp at h
  have heq : (cl'.rest.map Chunk.data ++ [cl'.current.data])[c]?
      = (cl.rest.map Chunk.data ++ [cl.current.data])[c]? := by
    rw [hrest]
    exact List.getElem?_append_left hlt
  rw [heq]
  exact h

/-! ## Per-operation invariants: order of `into_vec`, stability of positions,
well-formedness of the current chunk -/

theorem alloc_extend_into_vec (cl cl' : ChunkList T) (items : List T) (hint idx : Nat)
    (hwf : cl.current.data.length ≤ cl.current.cap)
    (h : Arena.alloc_extend cl items hint = some (cl', idx)) :
    Arena.into_vec cl' = Arena.into_vec cl ++ items := by
  rcases (alloc_extend_spec cl cl' items hint idx hwf h).2 with h1 | h2
  · obtain ⟨ha, _, hcc, _⟩ := h1
    simp [Arena.into_vec, ha, hcc]
  · obtain ⟨ha, _, hcc⟩ := h2
    simp [Arena.into_vec, ha, hcc, List.flatten_append]

theorem alloc_extend_get_at (cl cl' : ChunkList T) (items : List T) (hint idx : Nat)
    (hwf : cl.current.data.length ≤ cl.current.cap)
    (h : Arena.alloc_extend cl items hint = some (cl', idx)) :
    ∀ (c o : Nat) (x : T), get_at cl c o = some x → get_at cl' c o = some x := by
  intro c o x hg
  rcases (alloc_extend_spec cl cl' items hint idx hwf h).2 with h1 | h2
  · exact get_at_extend_current cl cl' items c o x h1.1 h1.2.2.1 hg
  · exact get_at_retire cl cl' c o x h2.1 hg

theorem alloc_spec (cl cl' : ChunkList T) (v : T)
    (hwf : cl.current.data.length ≤ cl.current.cap)
    (h : Arena.alloc cl v = some cl') :
    cl'.current.data.length ≤ cl'.current.cap ∧
    Arena.into_vec cl' = Arena.into_vec cl ++ [v] ∧
    (∀ (c o : Nat) (x : T), get_at cl c o = some x → get_at cl' c o = some x) := by
  by_cases hfast : cl.current.data.length < cl.current.cap
  · simp only [Arena.alloc, Arena.alloc_fast_path, if_pos hfast, Option.some.injEq] at h
    subst h
    refine ⟨vpush_wf _ _, by simp [Arena.into_vec, Chunk.vpush], ?_⟩
    intro c o x hg
    exact get_at_extend_current cl _ [v] c o x rfl rfl hg
  · simp only [Arena.alloc, Arena.alloc_fast_path, if_neg hfast] at h
    cases he : Arena.alloc_extend cl [v] 1 with
    | none => rw [he] at h; cases h
    | some p =>
      rw [he] at h
      obtain ⟨cl2, idx⟩ := p
      simp only [Option.map_some', Option.some.injEq] at h
      subst h
      exact ⟨alloc_extend_wf cl cl2 [v] 1 idx hwf he,
        alloc_extend_into_vec cl cl2 [v] 1 idx hwf he,
        alloc_extend_get_at cl cl2 [v] 1 idx hwf he⟩

theorem alloc_uninitialized_spec (cl cl' : ChunkList T) (junk : List T)
    (hwf : cl.current.data.length ≤ cl.current.cap)
    (h : Arena.alloc_uninitialized cl junk = some cl') :
    cl'.current.data.length ≤ cl'.current.cap ∧
    Arena.into_vec cl' = Arena.into_vec cl ++ junk ∧
    (∀ (c o : Nat) (x : T), get_at cl c o = some x → get_at cl' c o = some x) := by
  by_cases hov : cl.current.cap < cl.current.data.length + junk.length
  · cases hres : cl.reserve junk.length with
    | none => simp [Arena.alloc_uninitialized, hov, hres] at h
    | some cl2 =>
      obtain ⟨hd, hc, hr⟩ := reserve_eq_some cl cl2 junk.length hres
      simp only [Arena.alloc_uninitialized, if_pos hov, hres, Option.some.injEq] at h
      subst h
      refine ⟨?_, ?_, ?_⟩
      · simp only [hd, hc, List.nil_append]
        exact le_trans (le_nextPow2 junk.length) (le_max_right _ _)
      · simp [Arena.into_vec, hr, hd, List.flatten_append]
      · intro c o x hg
        refine get_at_retire cl _ c o x ?_ hg
        simp [hr]
  · simp only [Arena.alloc_uninitialized, if_neg hov, Option.some.injEq] at h
    subst h
    refine ⟨by simp only [List.length_append]; omega, by simp [Arena.into_vec], ?_⟩
    intro c o x hg
    exact get_at_extend_current cl _ junk c o x rfl rfl hg

/-- Every allocation call preserves well-formedness, appends exactly what it
produced to `into_vec`, and leaves every existing (chunk, offset) position
holding the same value. -/
theorem apply_op_spec (cl cl' : ChunkList T) (op : Op T)
    (hwf : cl.current.data.length ≤ cl.current.cap)
    (h : apply_op cl op = some cl') :
    cl'.current.data.length ≤ cl'.current.cap ∧
    Arena.into_vec cl' = Arena.into_vec cl ++ op.produced ∧
    (∀ (c o : Nat) (x : T), get_at cl c o = some x → get_at cl' c o = some x) := by
  cases op with
  | allocOp v => exact alloc_spec cl cl' v hwf h
  | extendOp items hint =>
    simp only [apply_op] at h
    cases he : Arena.alloc_extend cl items hint with
    | none => rw [he] at h; cases h
    | some p =>
      rw [he] at h
      obtain ⟨cl2, idx⟩ := p
      simp only [Option.map_some', Option.some.injEq] at h
      subst h
      simp only [Op.produced]
      exact ⟨alloc_extend_wf cl cl2 items hint idx hwf he,
        alloc_extend_into_vec cl cl2 items hint idx hwf he,
        alloc_extend_get_at cl cl2 items hint idx hwf he⟩
  | uninitOp junk => exact alloc_uninitialized_spec cl cl' junk hwf h

/-- `apply_op_spec`, iterated over a whole sequence of allocation calls. -/
theorem run_ops_spec (ops : List (Op T)) :
    ∀ (cl cl' : ChunkList T),
    cl.current.data.length ≤ cl.current.cap →
    run_ops cl ops = some cl' →
    cl'.current.data.length ≤ cl'.current.cap ∧
    Arena.into_vec cl' = Arena.into_vec cl ++ produced_all ops ∧
    (∀ (c o : Nat) (x : T), get_at cl c o = some x → get_at cl' c o = some x) := by
  induction ops with
  | nil =>
    intro cl cl' hwf h
    simp only [run_ops, Option.some.injEq] at h
    subst h
    exact ⟨hwf, by simp [produced_all], fun c o x hg => hg⟩
  | cons op ops ih =>
    intro cl cl' hwf h
    simp only [run_ops] at h
    cases he : apply_op cl op with
    | none => rw [he] at h; cases h
    | some cl2 =>
      rw [he] at h
      obtain ⟨hwf2, hvec2, hget2⟩ := apply_op_spec cl cl2 op hwf he
      obtain ⟨hwf3, hvec3, hget3⟩ := ih cl2 cl' hwf2 h
      refine ⟨hwf3, ?_, fun c o x hg => hget3 c o x (hget2 c o x hg)⟩
      rw [hvec3, hvec2]
      simp [produced_all, List.append_assoc]

/-! ## Panic characterization helpers -/

/-- If the push loop panics, the panic came from `reserve`, and since the
loop only ever asks for `i + 1 ≤ cap + 1` additional elements (whose
power-of-two rounding always fits), the cause is the doubling overflow. -/
theorem alloc_extend_loop_none (items : List T) :
    ∀ (cl : ChunkList T) (i startLen : Nat),
    cl.current.data.length ≤ cl.current.cap →
    i ≤ cl.current.data.length →
    Arena.alloc_extend_loop cl items i startLen = none →
    usizeMax < 2 * cl.current.cap := by
  induction items with
  | nil => intro cl i startLen _ _ h; simp [Arena.alloc_extend_loop] at h
  | cons elem restItems ih =>
    intro cl i startLen hwf hi h
    by_cases hfull : cl.current.data.length = cl.current.cap
    · cases hres : cl.reserve (i + 1) with
      | none =>
        rcases (reserve_eq_none_iff cl (i + 1)).mp hres with h1 | h2
        · exact h1
        · by_contra hcap
          have hval : usizeMax = 18446744073709551615 := by norm_num [usizeMax]
          have h63 : (2 : Nat) ^ 63 = 9223372036854775808 := by norm_num
          have hc2 : i + 1 ≤ 2 ^ 63 := by omega
          have := nextPow2_le_usizeMax (i + 1) hc2
          omega
      | some cl2 =>
        obtain ⟨_, _, hr⟩ := reserve_eq_some cl cl2 (i + 1) hres
        have hlast : cl2.rest.getLast? = some cl.current := by
          rw [hr]; exact List.getLast?_concat _
        simp [Arena.alloc_extend_loop, hfull, hres, hlast] at h
    · simp only [Arena.alloc_extend_loop, if_neg hfull] at h
      have hlt : cl.current.data.length < cl.current.cap := lt_of_le_of_ne hwf hfull
      have := ih { cl with current := cl.current.vpush elem } (i + 1) startLen
        (vpush_wf cl.current elem) (by simp [Chunk.vpush]; omega) h
      rwa [vpush_cap_of_lt cl.current elem hlt] at this

/-- If `alloc_extend` panics, the panic is a capacity-arithmetic overflow:
either doubling the current capacity or rounding the size hint up to a power
of two exceeds `usize`. -/
theorem alloc_extend_none (cl : ChunkList T) (items : List T) (hint : Nat)
    (hwf : cl.current.data.length ≤ cl.current.cap)
    (h : Arena.alloc_extend cl items hint = none) :
    usizeMax < 2 * cl.current.cap ∨ usizeMax < nextPow2 hint := by
  by_cases hover : cl.current.cap < cl.current.data.length + hint
  · cases hres : cl.reserve hint with
    | none => exact (reserve_eq_none_iff cl hint).mp hres
    | some cl2 => simp [Arena.alloc_extend, hover, hres] at h
  · simp only [Arena.alloc_extend, if_neg hover] at h
    exact Or.inl (alloc_extend_loop_none items cl 0 cl.current.data.length hwf (by omega) h)

/-! ## Iterator helpers -/

/-- Whenever `Iter::next` returns `None`, the returned state has `done`
set: the `None` in the current-chunk branch is produced together with
`self.done = true`, and the `done` branch echoes the already-set flag. -/
theorem iter_next_none_done (it it' : Iter) (cl : ChunkList T)
    (h : Iter.next it cl = some (none, it')) : it'.done = true := by
  unfold Iter.next at h
  by_cases hdone : it.done
  · simp only [if_pos hdone, Option.some.injEq, Prod.mk.injEq] at h
    obtain ⟨_, h2⟩ := h
    subst h2
    exact hdone
  · rw [if_neg hdone] at h
    by_cases hcur : it.chunk = cl.rest.length
    · rw [if_pos hcur] at h
      by_cases hend : it.i = cl.current.data.length
      · simp only [if_pos hend, Option.some.injEq, Prod.mk.injEq] at h
        obtain ⟨_, h2⟩ := h
        subst h2
        rfl
      · rw [if_neg hend] at h
        cases hg : cl.current.data[it.i]? with
        | none => rw [hg] at h; cases h
        | some v =>
          rw [hg] at h
          simp only [Option.some.injEq, Prod.mk.injEq] at h
          cases h.1
    · rw [if_neg hcur] at h
      cases hg : cl.rest[it.chunk]? with
      | none => rw [hg] at h; cases h
      | some chunk =>
        rw [hg] at h
        by_cases hend : it.i = chunk.data.length
        · simp only [if_pos hend] at h
          cases hg2 : chunk.data[(0 : Nat)]? with
          | none => rw [hg2] at h; cases h
          | some v =>
            rw [hg2] at h
            simp only [Option.some.injEq, Prod.mk.injEq] at h
            cases h.1
        · simp only [if_neg hend] at h
          cases hg2 : chunk.data[it.i]? with
          | none => rw [hg2] at h; cases h
          | some v =>
            rw [hg2] at h
            simp only [Option.some.injEq, Prod.mk.injEq] at h
            cases h.1

/-! ## Re-entrancy helpers -/

/-- Consuming an iterator that contains a re-entrant item under the active
mutable borrow panics. -/
theorem consume_all_none (items : List (ExtendItem T))
    (h : ∃ a ∈ items, a.isReentrant = true) : consume_all items = none := by
  induction items with
  | nil => simp at h
  | cons b rest ih =>
    rcases h with ⟨a, ha, hra⟩
    rcases List.mem_cons.mp ha with rfl | hmem
    · cases a with
      | pure v => simp [ExtendItem.isReentrant] at hra
      | reentrantAlloc w v => simp [consume_all, consume_item]
    · have hrest := ih ⟨a, hmem, hra⟩
      cases hcb : consume_item b with
      | none => simp [consume_all, hcb]
      | some v => simp [consume_all, hcb, hrest]

/-- The push loop panics as soon as it consumes a re-entrant item. -/
theorem alloc_extend_loop_cell_none (items : List (ExtendItem T)) :
    ∀ (cl : ChunkList T) (i startLen : Nat),
    (∃ a ∈ items, a.isReentrant = true) →
    alloc_extend_loop_cell cl items i startLen = none := by
  induction items with
  | nil => intro cl i startLen h; simp at h
  | cons b rest ih =>
    intro cl i startLen h
    rcases h with ⟨a, ha, hra⟩
    rcases List.mem_cons.mp ha with rfl | hmem
    · cases a with
      | pure v => simp [ExtendItem.isReentrant] at hra
      | reentrantAlloc w v => simp [alloc_extend_loop_cell, consume_item]
    · cases hcb : consume_item b with
      | none => simp [alloc_extend_loop_cell, hcb]
      | some v =>
        by_cases hfull : cl.current.data.length = cl.current.cap
        · have hca := consume_all_none rest ⟨a, hmem, hra⟩
          cases hres : cl.reserve (i + 1) with
          | none => simp only [alloc_extend_loop_cell, hcb, if_pos hfull, hres]
          | some cl2 =>
            cases hlast : cl2.rest.getLast? with
            | none => simp only [alloc_extend_loop_cell, hcb, if_pos hfull, hres, hlast]
            | some prev =>
              simp only [alloc_extend_loop_cell, hcb, if_pos hfull, hres, hlast, hca]
        · simp only [alloc_extend_loop_cell, hcb, if_neg hfull]
          exact ih _ (i + 1) startLen ⟨a, hmem, hra⟩

/-! ## The claims -/

/-- Claim C1, counterexample.  The claim states that after `next` returns
`None`, a subsequent allocation followed by another `next` on the same
iterator yields the new element.  Concretely: an arena holds `5`; `next`
yields `5`, then returns `None` (setting `done`); `6` is then allocated; the
next call on the same iterator state returns `None` again — not `Some 6` —
so a single `None` does permanently terminate this iterator instance. -/
theorem iter_resumes_after_none_cex :
    Iter.next (T := Nat) ⟨false, 0, 0⟩ ⟨⟨[5], 4⟩, []⟩ = some (some 5, ⟨false, 0, 1⟩) ∧
    Iter.next (T := Nat) ⟨false, 0, 1⟩ ⟨⟨[5], 4⟩, []⟩ = some (none, ⟨true, 0, 1⟩) ∧
    Arena.alloc (T := Nat) ⟨⟨[5], 4⟩, []⟩ 6 = some ⟨⟨[5, 6], 4⟩, []⟩ ∧
    Iter.next (T := Nat) ⟨true, 0, 1⟩ ⟨⟨[5, 6], 4⟩, []⟩ = some (none, ⟨true, 0, 1⟩) := by
  decide

/-- Claim C1, amended.  `Iter::next` sets the `done` flag whenever it returns
`None`, so a single `None` result permanently terminates the iterator
instance: every later call returns `None` no matter what is allocated into
the arena afterwards.  (Allocations made before the first `None` are still
picked up, per the source doc example.) -/
theorem iter_none_is_permanent (it it' : Iter) (cl cl2 : ChunkList T)
    (h : Iter.next it cl = some (none, it')) :
    Iter.next it' cl2 = some (none, it') := by
  have hdone := iter_next_none_done it it' cl h
  simp [Iter.next, hdone]

/-- Claim C1, witness for `iter_none_is_permanent`: the iterator that just
returned `None` on the one-element arena keeps returning `None` on the grown
arena. -/
theorem iter_none_is_permanent_witness :
    Iter.next (T := Nat) ⟨true, 0, 1⟩ ⟨⟨[5, 6], 4⟩, []⟩ = some (none, ⟨true, 0, 1⟩) :=
  iter_none_is_permanent ⟨false, 0, 1⟩ ⟨true, 0, 1⟩ ⟨⟨[5], 4⟩, []⟩ ⟨⟨[5, 6], 4⟩, []⟩ (by decide)

/-- Claim C2: in `Iter::next`, the local binding `chunk` is taken from
`rest[self.chunk]` before the cursor is advanced, so when the offset has
reached the end of a retired chunk the code advances the cursor but then
indexes the old, exhausted chunk at offset 0.  On the arena with retired
chunks `[1]` and `[2, 3]`: from cursor (chunk 0, i 1) — the end of the first
retired chunk — `next` returns the stale element `1` (already yielded from
cursor (0, 0) one step earlier) instead of `2`, the first element of the
next chunk.  This contradicts the source's own documentation that items
appear in allocation order. -/
theorem iter_retired_boundary_stale_element :
    Iter.next (T := Nat) ⟨false, 0, 0⟩ ⟨⟨[4], 4⟩, [⟨[1], 1⟩, ⟨[2, 3], 2⟩]⟩
        = some (some 1, ⟨false, 0, 1⟩) ∧
    Iter.next (T := Nat) ⟨false, 0, 1⟩ ⟨⟨[4], 4⟩, [⟨[1], 1⟩, ⟨[2, 3], 2⟩]⟩
        = some (some 1, ⟨false, 1, 1⟩) ∧
    (⟨⟨[4], 4⟩, [⟨[1], 1⟩, ⟨[2, 3], 2⟩]⟩ : ChunkList Nat).rest.map Chunk.data
        = [[1], [2, 3]] := by
  decide

/-- Claim C3: a batch allocation of `k` items into a current chunk with fewer
than `k` remaining slots returns the slice starting at index 0 of the
post-call current chunk, which holds exactly the `k` produced items
contiguously and in production order; the chunk retired by the splice holds
exactly the elements it held before the call began. -/
theorem alloc_extend_splice_atomic (cl cl' : ChunkList T) (items : List T) (hint idx : Nat)
    (hwf : cl.current.data.length ≤ cl.current.cap)
    (hover : cl.current.cap - cl.current.data.length < items.length)
    (hrun : Arena.alloc_extend cl items hint = some (cl', idx)) :
    idx = 0 ∧ cl'.current.data = items ∧ cl'.current.data.drop idx = items ∧
    cl'.rest.map Chunk.data = cl.rest.map Chunk.data ++ [cl.current.data] := by
  obtain ⟨hdrop, hcases⟩ := alloc_extend_spec cl cl' items hint idx hwf hrun
  rcases hcases with h1 | h2
  · exact absurd h1.2.2.2 (by omega)
  · obtain ⟨ha, hb, hcc⟩ := h2
    exact ⟨hb, hcc, hdrop, ha⟩

/-- Claim C3, witness for `alloc_extend_splice_atomic`: current chunk `[9]`
of capacity 1 (0 slots remaining), batch `[7, 8]`; the call splices, the
returned run is the whole new current chunk `[7, 8]`, and the retired chunk
holds exactly `[9]`. -/
theorem alloc_extend_splice_atomic_witness :
    (⟨⟨[7, 8], 2⟩, [⟨[9], 1⟩]⟩ : ChunkList Nat).current.data = [7, 8] ∧
    (⟨⟨[7, 8], 2⟩, [⟨[9], 1⟩]⟩ : ChunkList Nat).rest.map Chunk.data
        = (⟨⟨[9], 1⟩, []⟩ : ChunkList Nat).rest.map Chunk.data ++ [[9]] := by
  have h := alloc_extend_splice_atomic (T := Nat) ⟨⟨[9], 1⟩, []⟩ ⟨⟨[7, 8], 2⟩, [⟨[9], 1⟩]⟩
    [7, 8] 0 0 (by decide) (by decide) (by decide)
  exact ⟨h.2.1, h.2.2.2⟩

/-- Claim C4: for any finite sequence of `alloc` / `alloc_extend` calls that
runs without a capacity-overflow panic, `into_vec` returns exactly the
produced elements in production order (hence the empty list for zero
allocations, and a list of length `n` for `n` produced elements). -/
theorem into_vec_order_preservation (n : Nat) (ops : List (Op T)) (cl : ChunkList T)
    (hkind : ∀ op ∈ ops, op.isAllocOrExtend = true)
    (hrun : run_ops (Arena.with_capacity n) ops = some cl) :
    Arena.into_vec cl = produced_all ops ∧
    (Arena.into_vec cl).length = (produced_all ops).length := by
  have hwf : (Arena.with_capacity (T := T) n).current.data.length
      ≤ (Arena.with_capacity (T := T) n).current.cap := by
    simp [Arena.with_capacity]
  have h := (run_ops_spec ops (Arena.with_capacity n) cl hwf hrun).2.1
  have hempty : Arena.into_vec (Arena.with_capacity (T := T) n) = [] := rfl
  rw [hempty, List.nil_append] at h
  exact ⟨h, by rw [h]⟩

/-- Claim C4, witness for `into_vec_order_preservation`: `alloc 1` then
`alloc_extend [2, 3]` starting from capacity 1 crosses a chunk boundary, and
`into_vec` still returns `[1, 2, 3]`. -/
theorem into_vec_order_preservation_witness :
    Arena.into_vec (⟨⟨[2, 3], 2⟩, [⟨[1], 1⟩]⟩ : ChunkList Nat)
        = produced_all [Op.allocOp 1, Op.extendOp [2, 3] 2] ∧
    (Arena.into_vec (⟨⟨[2, 3], 2⟩, [⟨[1], 1⟩]⟩ : ChunkList Nat)).length
        = (produced_all [Op.allocOp 1, Op.extendOp [2, 3] 2]).length :=
  into_vec_order_preservation 1 [Op.allocOp 1, Op.extendOp [2, 3] 2]
    ⟨⟨[2, 3], 2⟩, [⟨[1], 1⟩]⟩ (by decide) (by decide)

/-- Claim C5: any sequence of later allocation calls (`alloc`,
`alloc_extend`, `alloc_uninitialized`) leaves every element already
allocated at a (chunk index, offset) position with the same value at the
same position: retirement appends the old current chunk at the chunk index
it already occupied, chunks are never resized in place, and the splice only
drains elements pushed by the call itself. -/
theorem allocations_preserve_existing_positions (cl cl' : ChunkList T) (ops : List (Op T))
    (c o : Nat) (x : T)
    (hwf : cl.current.data.length ≤ cl.current.cap)
    (hrun : run_ops cl ops = some cl')
    (hget : get_at cl c o = some x) :
    get_at cl' c o = some x :=
  (run_ops_spec ops cl cl' hwf hrun).2.2 c o x hget

/-- Claim C5, witness for `allocations_preserve_existing_positions`: element
`7` at position (0, 0) survives an allocation that retires its chunk. -/
theorem allocations_preserve_existing_positions_witness :
    get_at (⟨⟨[8], 2⟩, [⟨[7], 1⟩]⟩ : ChunkList Nat) 0 0 = some 7 :=
  allocations_preserve_existing_positions ⟨⟨[7], 1⟩, []⟩ ⟨⟨[8], 2⟩, [⟨[7], 1⟩]⟩
    [Op.allocOp 8] 0 0 7 (by decide) (by decide) (by decide)

/-- Claim C6: a successful growth step for required additional capacity `k`
creates a current chunk of capacity exactly `max (2 * old) (nextPow2 k)`,
where `nextPow2 k` is the least power of two that is at least `k`, and
appends the old current chunk to the end of the retired sequence. -/
theorem reserve_growth_policy (cl cl' : ChunkList T) (k : Nat) (hk : 1 ≤ k)
    (hres : cl.reserve k = some cl') :
    cl'.current.cap = max (2 * cl.current.cap) (nextPow2 k) ∧
    k ≤ nextPow2 k ∧ (∃ m, nextPow2 k = 2 ^ m) ∧
    (∀ m, k ≤ 2 ^ m → nextPow2 k ≤ 2 ^ m) ∧
    cl'.rest = cl.rest ++ [cl.current] := by
  obtain ⟨_, hc, hr⟩ := reserve_eq_some cl cl' k hres
  exact ⟨hc, le_nextPow2 k, nextPow2_isPow k, fun m hm => nextPow2_le k m hm, hr⟩

/-- Claim C6, witness for `reserve_growth_policy`: growing a capacity-4 chunk
with `k = 3` yields capacity `max 8 4 = 8`, and `nextPow2 3 = 4` is the
least power of two at least 3. -/
theorem reserve_growth_policy_witness :
    (⟨⟨[], 8⟩, [⟨[], 4⟩]⟩ : ChunkList Nat).current.cap = max (2 * 4) (nextPow2 3) ∧
    3 ≤ nextPow2 3 ∧ nextPow2 3 ≤ 2 ^ 2 ∧
    (⟨⟨[], 8⟩, [⟨[], 4⟩]⟩ : ChunkList Nat).rest = [] ++ [⟨[], 4⟩] := by
  have h := reserve_growth_policy (T := Nat) ⟨⟨[], 4⟩, []⟩ ⟨⟨[], 8⟩, [⟨[], 4⟩]⟩ 3
    (by decide) (by decide)
  exact ⟨h.1, h.2.1, h.2.2.2.1 2 (by decide), h.2.2.2.2⟩

/-- Claim C7, counterexample.  Starting from capacity 1 and allocating 5
items one at a time, the chunk capacities (retired chunks in retirement
order, then the current chunk) are `[1, 2, 4]` — three chunks — not the
claimed `[1, 1, 2, 4, 8]`: each growth step asks for one more element, so
`reserve(1)` doubles 1 to 2 and 2 to 4, and the capacity-4 chunk still has a
free slot after the fifth item, so no further chunk is ever created. -/
theorem growth_sequence_1_1_2_4_8_cex :
    (run_ops (T := Nat) (Arena.with_capacity 1)
        [Op.allocOp 1, Op.allocOp 2, Op.allocOp 3, Op.allocOp 4, Op.allocOp 5]).map chunk_caps
      = some [1, 2, 4] ∧
    some [1, 2, 4] ≠ some ([1, 1, 2, 4, 8] : List Nat) := by
  decide

/-- Claim C7, amended: starting from capacity 1, allocating 5 items one at a
time produces exactly two retirements — the capacity-1 chunk holding item 1
and the capacity-2 chunk holding items 2 and 3 — and ends with a current
chunk of capacity 4 holding items 4 and 5, i.e. the chunk capacity sequence
is 1, 2, 4. -/
theorem growth_sequence_five_allocs :
    run_ops (T := Nat) (Arena.with_capacity 1)
        [Op.allocOp 1, Op.allocOp 2, Op.allocOp 3, Op.allocOp 4, Op.allocOp 5]
      = some ⟨⟨[4, 5], 4⟩, [⟨[1], 1⟩, ⟨[2, 3], 2⟩]⟩ := by
  decide

/-- Claim C8: a growth step panics exactly when the capacity arithmetic
overflows `usize` — doubling the old capacity or rounding the required
additional capacity up to the next power of two — and the allocation calls
have no other failure outcome: `alloc` fails exactly when the chunk is full
and doubling overflows, a failing `alloc_extend` means doubling or the
size-hint rounding overflowed, and `alloc_uninitialized` fails exactly when
it must grow and the growth arithmetic overflows. -/
theorem allocation_failure_is_overflow (cl : ChunkList T) (k : Nat) (v : T)
    (items junk : List T) (hint : Nat)
    (hwf : cl.current.data.length ≤ cl.current.cap) :
    (cl.reserve k = none ↔ usizeMax < 2 * cl.current.cap ∨ usizeMax < nextPow2 k) ∧
    (Arena.alloc cl v = none ↔
      cl.current.cap ≤ cl.current.data.length ∧ usizeMax < 2 * cl.current.cap) ∧
    (Arena.alloc_extend cl items hint = none →
      usizeMax < 2 * cl.current.cap ∨ usizeMax < nextPow2 hint) ∧
    (Arena.alloc_uninitialized cl junk = none ↔
      cl.current.cap < cl.current.data.length + junk.length ∧
        (usizeMax < 2 * cl.current.cap ∨ usizeMax < nextPow2 junk.length)) := by
  refine ⟨reserve_eq_none_iff cl k, ?_, alloc_extend_none cl items hint hwf, ?_⟩
  · by_cases hfast : cl.current.data.length < cl.current.cap
    · simp only [Arena.alloc, Arena.alloc_fast_path, if_pos hfast]
      constructor
      · intro h; cases h
      · rintro ⟨h1, _⟩; omega
    · have hle : cl.current.cap ≤ cl.current.data.length := by omega
      have hover : cl.current.cap < cl.current.data.length + 1 := by omega
      simp only [Arena.alloc, Arena.alloc_fast_path, if_neg hfast, Arena.alloc_extend,
        if_pos hover]
      cases hres : cl.reserve 1 with
      | none =>
        have hd : usizeMax < 2 * cl.current.cap := by
          rcases (reserve_eq_none_iff cl 1).mp hres with h1 | h2
          · exact h1
          · rw [show nextPow2 1 = 1 from rfl] at h2
            exact absurd h2 (by norm_num [usizeMax])
        simp [hres, hle, hd]
      | some cl2 =>
        simp only [hres, Option.map_some']
        constructor
        · intro h; cases h
        · rintro ⟨_, h2⟩
          have hn : cl.reserve 1 = none := (reserve_eq_none_iff cl 1).mpr (Or.inl h2)
          rw [hres] at hn; cases hn
  · by_cases hov : cl.current.cap < cl.current.data.length + junk.length
    · cases hres : cl.reserve junk.length with
      | none =>
        have hd := (reserve_eq_none_iff cl junk.length).mp hres
        simp [Arena.alloc_uninitialized, hov, hres, hd]
      | some cl2 =>
        simp only [Arena.alloc_uninitialized, if_pos hov, hres]
        constructor
        · intro h; cases h
        · rintro ⟨_, h2⟩
          have hn : cl.reserve junk.length = none :=
            (reserve_eq_none_iff cl junk.length).mpr h2
          rw [hres] at hn; cases hn
    · simp only [Arena.alloc_uninitialized, if_neg hov]
      constructor
      · intro h; cases h
      · rintro ⟨h1, _⟩; omega

/-- Claim C8, witness for `allocation_failure_is_overflow`, instantiated on a
well-formed one-slot arena. -/
theorem allocation_failure_is_overflow_witness :
    (ChunkList.reserve (T := Nat) ⟨⟨[], 1⟩, []⟩ 1 = none ↔
      usizeMax < 2 * 1 ∨ usizeMax < nextPow2 1) ∧
    (Arena.alloc (T := Nat) ⟨⟨[], 1⟩, []⟩ 0 = none ↔ 1 ≤ 0 ∧ usizeMax < 2 * 1) ∧
    (Arena.alloc_extend (T := Nat) ⟨⟨[], 1⟩, []⟩ [] 0 = none →
      usizeMax < 2 * 1 ∨ usizeMax < nextPow2 0) ∧
    (Arena.alloc_uninitialized (T := Nat) ⟨⟨[], 1⟩, []⟩ [] = none ↔
      1 < 0 + 0 ∧ (usizeMax < 2 * 1 ∨ usizeMax < nextPow2 0)) :=
  allocation_failure_is_overflow ⟨⟨[], 1⟩, []⟩ 1 0 [] [] 0 (by decide)

/-- Claim C9: an iterator item that re-entrantly starts a mutating operation
on the same arena while `alloc_extend` is consuming it hits the
`RefCell::borrow_mut` that `alloc_extend` is already holding, so the call
panics (`none`): it fails loudly instead of silently corrupting the chunk
storage, whose pre-call value the caller keeps. -/
theorem reentrant_mutation_panics (cl : ChunkList T) (items : List (ExtendItem T)) (hint : Nat)
    (h : ∃ a ∈ items, a.isReentrant = true) :
    alloc_extend_cell cl items hint = none := by
  by_cases hover : cl.current.cap < cl.current.data.length + hint
  · have hca := consume_all_none items h
    cases hres : cl.reserve hint with
    | none => simp [alloc_extend_cell, hover, hres]
    | some cl2 => simp [alloc_extend_cell, hover, hres, hca]
  · simp only [alloc_extend_cell, if_neg hover]
    exact alloc_extend_loop_cell_none items cl 0 _ h

/-- Claim C9, witness for `reentrant_mutation_panics`: extending with a
single item that re-entrantly allocates panics. -/
theorem reentrant_mutation_panics_witness :
    alloc_extend_cell (T := Nat) ⟨⟨[], 4⟩, []⟩ [ExtendItem.reentrantAlloc 1 2] 0 = none :=
  reentrant_mutation_panics ⟨⟨[], 4⟩, []⟩ [ExtendItem.reentrantAlloc 1 2] 0
    ⟨ExtendItem.reentrantAlloc 1 2, by simp, rfl⟩

/-- Claim C10: `Arena::new` chooses capacity `INITIAL_SIZE / max 1 size`
floored to `MIN_CAPACITY = 1` — so zero-sized types get 1024, types larger
than 1024 bytes get 1 — and `with_capacity n` floors `n` to 1. -/
theorem initial_capacity_policy (s n : Nat) :
    (Arena.new (T := Nat) s).current.cap = max MIN_CAPACITY (INITIAL_SIZE / max 1 s) ∧
    (Arena.new (T := Nat) 0).current.cap = 1024 ∧
    (1024 < s → (Arena.new (T := Nat) s).current.cap = 1) ∧
    (Arena.with_capacity (T := Nat) n).current.cap = max MIN_CAPACITY n ∧
    (Arena.with_capacity (T := Nat) 0).current.cap = 1 := by
  refine ⟨rfl, rfl, ?_, rfl, rfl⟩
  intro hs
  have h1 : max 1 s = s := by omega
  have h2 : INITIAL_SIZE / s = 0 := Nat.div_eq_of_lt (by simp [INITIAL_SIZE]; omega)
  simp [Arena.new, Arena.with_capacity, h1, h2, MIN_CAPACITY]

/-- Claim C10, witness for `initial_capacity_policy`: a 2000-byte element
type gets initial capacity 1; a zero-sized type gets 1024. -/
theorem initial_capacity_policy_witness :
    (Arena.new (T := Nat) 2000).current.cap = 1 ∧
    (Arena.new (T := Nat) 0).current.cap = 1024 :=
  ⟨(initial_capacity_policy 2000 0).2.2.1 (by decide), (initial_capacity_policy 2000 0).2.1⟩

end TypedArena
